import Mathlib

/-!
Shallow embedding of the distributed classification-metric core of
src/gpu_bdb/queries/q28/gpu_bdb_query_28_sql.py.

Conventions of the embedding:
* a cupy int32 array is a List of integers; a partitioned label sequence is a
  List of such lists (one entry per partition);
* the two aligned sequences handed to a worker form a pair of lists, the same
  pairing the DistributedDataHandler builds from [first, second] arguments;
* float values that the code can only produce as exact small rationals are
  rationals; a float that may be IEEE NaN is an Option rational with none for
  NaN (the only divisions in the precision path are tp/(tp+fp) with
  nonnegative integer numerator bounded by the denominator, so a zero
  denominator always means the NaN case 0/0);
* a computation that raises in Python returns none (or an explicit error code
  where the distinct error matters).
-/

namespace GpuBdbQ28

/-- One partition slice of two aligned label sequences, as a single worker
receives it.  For sum_tp_fp and local_cm the first component is the slice of
y_true and the second the slice of y_pred. -/
abbrev Slice := List ℤ × List ℤ

/-- cp.unique: the ascending sorted list of the distinct values of an array. -/
def cpUnique (l : List ℤ) : List ℤ :=
  List.insertionSort (· ≤ ·) l.dedup

/-- Label-space resolution as both precision_score (line 116) and
confusion_matrix (line 188) perform it: each partition computes its local
distinct set (map_blocks with cp.unique), the driver concatenates the local
results and applies cp.unique once more. -/
def resolveLabels (parts : List (List ℤ)) : List ℤ :=
  cpUnique ((parts.map cpUnique).flatten)

/-- nclasses as precision_score computes it: the size of the resolved label
space of the partitioned y_true sequence. -/
def nclassesOf (parts : List Slice) : ℕ :=
  (resolveLabels (parts.map Prod.fst)).length

/-- Masked assignment ser.loc[mask] = v of cudf: positions where the mask
holds receive v, the others keep their value. -/
def maskAssign (out : List ℤ) (mask : List Bool) (v : ℤ) : List ℤ :=
  List.zipWith (fun o m => if m then v else o) out mask

/-- map_labels (lines 54-63): start from a series filled with 2, assign 0
where the rating is 1 or 2, then assign 1 where the rating is 3. -/
def map_labels (ser : List ℤ) : List ℤ :=
  let out0 := List.replicate ser.length 2
  let out1 := maskAssign out0 (ser.map (fun r => decide (r = 1) || decide (r = 2))) 0
  maskAssign out1 (ser.map (fun r => decide (r = 3))) 1

/-- Pointwise form of map_labels, used to state and prove its specification:
the zero-flag assignment runs first, the three-flag assignment second, and
the flags are disjoint. -/
def labelOf (r : ℤ) : ℤ :=
  if r = 1 ∨ r = 2 then 0 else if r = 3 then 1 else 2

/-- TP and FP counts of one prediction bucket: among the (true, predicted)
pairs whose prediction equals c, how many agree and how many disagree. -/
def tpfpRow (pairs : List (ℤ × ℤ)) (c : ℤ) : ℕ × ℕ :=
  let pos := pairs.filter (fun p => decide (p.2 = c))
  (pos.countP (fun p => decide (p.1 = p.2)), pos.countP (fun p => decide (p.1 ≠ p.2)))

/-- The loop of sum_tp_fp (lines 98-109) over classes i, i+1, ... with the
given amount of fuel (remaining classes).  An empty prediction bucket sets
the current row to zero and then executes a break, so every remaining row
stays zero as well. -/
def tpfpLoop (pairs : List (ℤ × ℤ)) : ℕ → ℤ → List (ℕ × ℕ)
  | 0, _ => []
  | fuel + 1, i =>
    let pos := pairs.filter (fun p => decide (p.2 = i))
    if pos.length = 0 then
      List.replicate (fuel + 1) (0, 0)
    else
      (pos.countP (fun p => decide (p.1 = p.2)),
       pos.countP (fun p => decide (p.1 ≠ p.2))) :: tpfpLoop pairs fuel (i + 1)

/-- sum_tp_fp (lines 93-110): the local TP/FP table of one partition slice,
one row per class index from 0 to nclasses - 1. -/
def sum_tp_fp (y y_pred : List ℤ) (nclasses : ℕ) : List (ℕ × ℕ) :=
  tpfpLoop (y.zip y_pred) nclasses 0

/-- Elementwise sum of two TP/FP tables (res += i at line 137). -/
def addTables (a b : List (ℕ × ℕ)) : List (ℕ × ℕ) :=
  List.zipWith (fun r s => (r.1 + s.1, r.2 + s.2)) a b

/-- The globally summed TP/FP table of precision_score (lines 134-137): the
zero table accumulated with every partition's local table. -/
def globalTpFp (parts : List Slice) (nclasses : ℕ) : List (ℕ × ℕ) :=
  (parts.map (fun p => sum_tp_fp p.1 p.2 nclasses)).foldl addTables
    (List.replicate nclasses (0, 0))

/-- All (true, predicted) row pairs of the whole partitioned input, in
partition order; claim-level statements count over this list. -/
def allPairs (parts : List Slice) : List (ℤ × ℤ) :=
  (parts.map (fun p => p.1.zip p.2)).flatten

/-- Error outcomes of precision_score.  The bare ValueError of the binary
guard (line 119) is the InvalidAveragingMode error of the specification; the
ValueError for fewer than two classes (line 122) is its DegenerateLabelSpace
error. -/
inductive PrecErr where
  | invalidAveragingMode
  | degenerateLabelSpace
deriving DecidableEq

/-- The averaging modes the source dispatches on (the strings binary, macro
and micro). -/
inductive AvgMode where
  | binary
  | macroAvg
  | micro
deriving DecidableEq

/-- Float division tp / (tp + fp) of a TP/FP row.  Both counts are
nonnegative, so a zero denominator forces a zero numerator and the division
is exactly the IEEE NaN case 0/0, modelled as none; precision_score never
coerces this NaN away. -/
def divNaN (a b : ℚ) : Option ℚ :=
  if b = 0 then none else some (a / b)

/-- Per-class precision rates (lines 141-144): one tp / (tp + fp) division
per row of the summed table. -/
def precRates (table : List (ℕ × ℕ)) : List (Option ℚ) :=
  table.map (fun r => divNaN (r.1 : ℚ) ((r.1 : ℚ) + (r.2 : ℚ)))

/-- Rate of one row of a TP/FP table, in float semantics (none is NaN).
Used to state what binary averaging returns for the positive class. -/
def tableRate (table : List (ℕ × ℕ)) (i : ℕ) : Option ℚ :=
  divNaN (((table.getD i (0, 0)).1 : ℚ))
    (((table.getD i (0, 0)).1 : ℚ) + ((table.getD i (0, 0)).2 : ℚ))

/-- cupy mean of a vector that may hold NaN entries: NaN propagates, and the
mean of an empty vector is NaN. -/
def meanNaN (l : List (Option ℚ)) : Option ℚ :=
  if l.length = 0 then none
  else (l.mapM id).map (fun v => v.sum / (l.length : ℚ))

/-- precision_score (lines 113-154) over the partitioned input: resolve the
label space from y_true, apply the two guard errors, sum the per-partition
TP/FP tables and collapse them according to the averaging mode. -/
def precision_score (parts : List Slice) (average : AvgMode) :
    Except PrecErr (Option ℚ) :=
  if average = AvgMode.binary ∧ 2 < nclassesOf parts then
    Except.error PrecErr.invalidAveragingMode
  else if nclassesOf parts < 2 then
    Except.error PrecErr.degenerateLabelSpace
  else
    match average with
    | AvgMode.binary =>
      Except.ok ((precRates (globalTpFp parts (nclassesOf parts))).getD
        (nclassesOf parts - 1) none)
    | AvgMode.macroAvg =>
      Except.ok (meanNaN (precRates (globalTpFp parts (nclassesOf parts))))
    | AvgMode.micro =>
      Except.ok (divNaN
        (((globalTpFp parts (nclassesOf parts)).map Prod.fst).sum : ℕ)
        ((((globalTpFp parts (nclassesOf parts)).map Prod.fst).sum : ℕ) +
          (((globalTpFp parts (nclassesOf parts)).map Prod.snd).sum : ℕ)))

/-- Elementwise subtraction of two cupy 1-d arrays with numpy broadcasting:
equal lengths subtract pointwise, a length-one operand broadcasts against the
other, and every other shape combination raises (none). -/
def cpSub (a b : List ℤ) : Option (List ℤ) :=
  if a.length = b.length then some (List.zipWith (fun x y => x - y) a b)
  else
    match a, b with
    | [x], _ => some (b.map (fun y => x - y))
    | _, [y] => some (a.map (fun x => x - y))
    | _, _ => none

/-- The per-partition unit of accuracy_score (lines 225-229): the length of
the y slice minus the number of nonzero entries of y - y_hat. -/
def countAccurate (y_hat y : List ℤ) : Option ℤ :=
  (cpSub y y_hat).map (fun d => (y.length : ℤ) - (d.countP (fun x => decide (x ≠ 0)) : ℤ))

/-- accuracy_score (lines 219-246).  Each partition pair carries the y_hat
slice first and the y slice second, the order DistributedDataHandler.create
builds from [y_hat, y]; the summed per-partition counts are divided by the
total length of y.  A partition whose unit raises, or a zero total length
(ZeroDivisionError), yields no numeric result. -/
def accuracy_score (parts : List (List ℤ × List ℤ)) : Option ℚ :=
  (parts.mapM (fun p => countAccurate p.1 p.2)).bind (fun counts =>
    if (parts.map (fun p => p.2.length)).sum = 0 then none
    else some ((counts.sum : ℚ) / (((parts.map (fun p => p.2.length)).sum : ℕ) : ℚ)))

/-- Claim-level count of positions where prediction and truth agree, summed
over all partitions. -/
def totalMatches (parts : List (List ℤ × List ℤ)) : ℕ :=
  (parts.map (fun p => (p.1.zip p.2).countP (fun e => decide (e.1 = e.2)))).sum

/-- Total number of rows of the second (y) sequence across partitions. -/
def totalLen (parts : List (List ℤ × List ℤ)) : ℕ :=
  (parts.map (fun p => p.2.length)).sum

/-- Filter a list by a boolean mask of the same length (positions where the
mask holds survive). -/
def maskFilter {α : Type} (xs : List α) (mask : List Bool) : List α :=
  ((xs.zip mask).filter (fun p => p.2)).map Prod.fst

/-- Boolean-mask indexing arr[mask] of numpy and cupy: defined only when the
mask length equals the array length, an IndexError (none) otherwise. -/
def maskIndex {α : Type} (xs : List α) (mask : List Bool) : Option (List α) :=
  if xs.length = mask.length then some (maskFilter xs mask) else none

/-- coo_matrix((data, (rows, cols)), shape=(n, n)).toarray() (lines 178-180):
duplicate coordinates accumulate; a negative index or one at least n is a
ValueError (none).  The trailing cp.nan_to_num of local_cm is the identity
here because every cell is a finite sum. -/
def cooToDense (n : ℕ) (rows cols : List ℤ) (data : List ℚ) :
    Option (List (List ℚ)) :=
  if (rows.all fun r => decide (0 ≤ r) && decide (r < (n : ℤ))) &&
      (cols.all fun c => decide (0 ≤ c) && decide (c < (n : ℤ))) then
    some ((List.range n).map (fun t : ℕ => (List.range n).map (fun p : ℕ =>
      ((((rows.zip cols).zip data).filter
        (fun e => decide (e.1.1 = (t : ℤ)) && decide (e.1.2 = (p : ℤ)))).map
          Prod.snd).sum)))
  else none

/-- local_cm (lines 157-182): build the keep-mask (only the upper bound of
each label is tested), filter both label slices by it, then materialise the
weight vector: absent weights become a ones vector of the length of the
already filtered y_true, and the weight vector is then itself indexed by the
original-length mask.  The filtered triple feeds a sparse accumulation. -/
def local_cm (y_true y_pred : List ℤ) (labels : List ℤ)
    (sample_weight : Option (List ℚ)) : Option (List (List ℚ)) :=
  let n := labels.length
  let mask := List.zipWith
    (fun t p => decide (p < (n : ℤ)) && decide (t < (n : ℤ))) y_true y_pred
  let yp := maskFilter y_pred mask
  let yt := maskFilter y_true mask
  let sw : List ℚ :=
    match sample_weight with
    | none => List.replicate yt.length 1
    | some w => w
  match maskIndex sw mask with
  | none => none
  | some sw2 => cooToDense n yt yp sw2

/-- Normalization modes of confusion_matrix: None, true, pred, all. -/
inductive NormMode where
  | noNorm
  | byTrue
  | byPred
  | byAll
deriving DecidableEq

/-- The nclasses by nclasses zero matrix (line 203). -/
def zeros (n : ℕ) : List (List ℚ) :=
  List.replicate n (List.replicate n 0)

/-- Elementwise sum of two matrices (cm += i at line 205). -/
def matAdd (a b : List (List ℚ)) : List (List ℚ) :=
  List.zipWith (fun r s => List.zipWith (fun x y => x + y) r s) a b

/-- The largest finite float64, the value np.nan_to_num substitutes for a
positive infinity. -/
def floatMax : ℚ :=
  (2 ^ 53 - 1) * 2 ^ 971

/-- One cell of a normalized confusion matrix after cp.nan_to_num (line 214):
a / b in float semantics with 0/0 mapped from NaN to 0 and a nonzero
numerator over zero mapped from the infinities to the extreme finite
floats. -/
def divNTN (a b : ℚ) : ℚ :=
  if b = 0 then (if a = 0 then 0 else if 0 < a then floatMax else -floatMax)
  else a / b

/-- cm / cm.sum(axis=1, keepdims=True): every cell divided by the sum of its
own row. -/
def rowNormalize (cm : List (List ℚ)) : List (List ℚ) :=
  cm.map (fun row => row.map (fun c => divNTN c row.sum))

/-- The vector of column sums of an n-column matrix. -/
def colSums (cm : List (List ℚ)) (n : ℕ) : List ℚ :=
  (List.range n).map (fun p => (cm.map (fun row => row.getD p 0)).sum)

/-- cm / cm.sum(axis=0, keepdims=True): every cell divided by the sum of its
own column. -/
def colNormalize (cm : List (List ℚ)) (n : ℕ) : List (List ℚ) :=
  cm.map (fun row => (row.zip (colSums cm n)).map (fun e => divNTN e.1 e.2))

/-- cm / cm.sum(): every cell divided by the grand total. -/
def allNormalize (cm : List (List ℚ)) : List (List ℚ) :=
  cm.map (fun row => row.map (fun c => divNTN c (cm.map List.sum).sum))

/-- confusion_matrix (lines 185-216): resolve the label space from y_true,
ship the same whole sample_weight to every partition's local_cm, sum the
local matrices elementwise and apply the requested normalization with NaN
coercion. -/
def confusion_matrix (parts : List Slice) (normalize : NormMode)
    (sample_weight : Option (List ℚ)) : Option (List (List ℚ)) :=
  match parts.mapM (fun p =>
      local_cm p.1 p.2 (resolveLabels (parts.map Prod.fst)) sample_weight) with
  | none => none
  | some cms =>
    some (match normalize with
      | NormMode.noNorm => cms.foldl matAdd (zeros (nclassesOf parts))
      | NormMode.byTrue => rowNormalize (cms.foldl matAdd (zeros (nclassesOf parts)))
      | NormMode.byPred =>
        colNormalize (cms.foldl matAdd (zeros (nclassesOf parts))) (nclassesOf parts)
      | NormMode.byAll => allNormalize (cms.foldl matAdd (zeros (nclassesOf parts))))

/-- Claim-level cell count: the number of row pairs with true label t and
predicted label p. -/
def countCell (pairs : List (ℤ × ℤ)) (t p : ℕ) : ℕ :=
  pairs.countP (fun e => decide (e.1 = (t : ℤ)) && decide (e.2 = (p : ℤ)))

/-- Claim-level unweighted confusion matrix over class indices 0..n-1. -/
def countMatrix (pairs : List (ℤ × ℤ)) (n : ℕ) : List (List ℚ) :=
  (List.range n).map (fun t => (List.range n).map (fun p =>
    (countCell pairs t p : ℚ)))

/-- Claim-level guarded division: a division by zero yields 0. -/
def safeDiv (a b : ℚ) : ℚ :=
  if b = 0 then 0 else a / b

/-- Claim-level row normalization: every cell divided by its row sum, a zero
row sum giving zero cells. -/
def rowNormSafe (M : List (List ℚ)) : List (List ℚ) :=
  M.map (fun row => row.map (fun c => safeDiv c row.sum))

/-- Claim-level column normalization: every cell divided by its column sum,
a zero column sum giving zero cells. -/
def colNormSafe (M : List (List ℚ)) (n : ℕ) : List (List ℚ) :=
  M.map (fun row => (row.zip (colSums M n)).map (fun e => safeDiv e.1 e.2))

/-- Claim-level grand-total normalization: every cell divided by the sum of
all cells, a zero total giving zero cells. -/
def allNormSafe (M : List (List ℚ)) : List (List ℚ) :=
  M.map (fun row => row.map (fun c => safeDiv c (M.map List.sum).sum))

/-- Claim-level per-class precision rate over a list of row pairs, written
exactly as the claims word it: true positives of class c over all positive
predictions of class c. -/
def claimRate (pairs : List (ℤ × ℤ)) (c : ℤ) : ℚ :=
  ((tpfpRow pairs c).1 : ℚ) / (((tpfpRow pairs c).1 : ℚ) + ((tpfpRow pairs c).2 : ℚ))

instance : DecidableEq (Except PrecErr (Option ℚ)) := fun a b =>
  match a, b with
  | Except.error x, Except.error y =>
    decidable_of_iff (x = y) (by simp)
  | Except.error _, Except.ok _ => isFalse (fun h => Except.noConfusion h)
  | Except.ok _, Except.error _ => isFalse (fun h => Except.noConfusion h)
  | Except.ok x, Except.ok y =>
    decidable_of_iff (x = y) (by simp)

/-! Lemmas and claim theorems. -/

lemma map_labels_cons (r : ℤ) (s : List ℤ) :
    map_labels (r :: s) = labelOf r :: map_labels s := by
  simp only [map_labels, List.length_cons, List.replicate_succ, List.map_cons,
    maskAssign, List.zipWith_cons_cons]
  congr 1
  by_cases h1 : r = 1 ∨ r = 2
  · have h3 : ¬r = 3 := by rcases h1 with h | h <;> omega
    simp [labelOf, h1, h3]
  · have h1a : ¬r = 1 := fun h => h1 (Or.inl h)
    have h1b : ¬r = 2 := fun h => h1 (Or.inr h)
    by_cases h3 : r = 3 <;> simp [labelOf, h1, h1a, h1b, h3]

lemma map_labels_eq_map (ser : List ℤ) : map_labels ser = ser.map labelOf := by
  induction ser with
  | nil => rfl
  | cons r s ih => rw [map_labels_cons, ih, List.map_cons]

/-- C10: map_labels returns a sequence of the same length whose entries lie in
zero, one, two; an entry is 0 exactly when the rating is 1 or 2, it is 1
exactly when the rating is 3, and it is 2 for every other rating value. -/
theorem map_labels_spec (ser : List ℤ) :
    (map_labels ser).length = ser.length ∧
    ∀ i, i < ser.length →
      ((map_labels ser).getD i 0 = 0 ∨ (map_labels ser).getD i 0 = 1 ∨
        (map_labels ser).getD i 0 = 2) ∧
      ((map_labels ser).getD i 0 = 0 ↔ ser.getD i 0 = 1 ∨ ser.getD i 0 = 2) ∧
      ((map_labels ser).getD i 0 = 1 ↔ ser.getD i 0 = 3) ∧
      ((ser.getD i 0 ≠ 1 ∧ ser.getD i 0 ≠ 2 ∧ ser.getD i 0 ≠ 3) →
        (map_labels ser).getD i 0 = 2) := by
  rw [map_labels_eq_map]
  refine ⟨List.length_map .., fun i hi => ?_⟩
  have hlen : i < (ser.map labelOf).length := by simpa using hi
  rw [List.getD_eq_getElem _ _ hlen, List.getD_eq_getElem _ _ hi, List.getElem_map]
  by_cases h1 : ser[i] = 1 ∨ ser[i] = 2
  · have h3 : ¬ser[i] = 3 := by rcases h1 with h | h <;> omega
    exact ⟨by simp [labelOf, h1, h3], by simp [labelOf, h1, h3],
      by simp [labelOf, h1, h3], fun h => absurd h1 (not_or.mpr ⟨h.1, h.2.1⟩)⟩
  · have h1a : ¬ser[i] = 1 := fun h => h1 (Or.inl h)
    have h1b : ¬ser[i] = 2 := fun h => h1 (Or.inr h)
    by_cases h3 : ser[i] = 3 <;> simp [labelOf, h1, h1a, h1b, h3]

/-- C10 witness: at the concrete series of ratings 2, 3, 7 the theorem gives
a label 1 at position 1 (its rating is 3) and an output of length 3. -/
theorem map_labels_spec_witness :
    (map_labels [2, 3, 7]).getD 1 0 = 1 ∧ (map_labels [2, 3, 7]).length = 3 :=
  ⟨(((map_labels_spec [2, 3, 7]).2 1 (by decide)).2.2.1).mpr (by decide),
    (map_labels_spec [2, 3, 7]).1⟩

/-- C1: evaluation of sum_tp_fp at the input y_true = [0, 2],
y_pred = [0, 2], nclasses = 3.  Class 1 receives no prediction, and the
break inside the loop leaves the row of class 2 at zero as well, although
the per-class TP and FP counts of class 2 (second conjunct) are 1 and 0:
the claimed per-class short-circuit would produce [(1,0), (0,0), (1,0)]. -/
theorem sum_tp_fp_break_at_failing_input :
    sum_tp_fp [0, 2] [0, 2] 3 = [(1, 0), (0, 0), (0, 0)] ∧
    tpfpRow (List.zip [0, 2] [0, 2]) 2 = (1, 0) := by
  exact ⟨rfl, rfl⟩

lemma length_tpfpLoop (pairs : List (ℤ × ℤ)) (fuel : ℕ) :
    ∀ i : ℤ, (tpfpLoop pairs fuel i).length = fuel := by
  induction fuel with
  | zero => intro i; rfl
  | succ n ih =>
    intro i
    simp only [tpfpLoop]
    split
    · simp
    · simp [ih]

lemma length_sum_tp_fp (y y_pred : List ℤ) (n : ℕ) :
    (sum_tp_fp y y_pred n).length = n :=
  length_tpfpLoop _ n 0

lemma tpfpLoop_covered (pairs : List (ℤ × ℤ)) (fuel : ℕ) :
    ∀ i : ℤ, (∀ k : ℕ, k < fuel → ∃ e ∈ pairs, e.2 = i + k) →
      tpfpLoop pairs fuel i =
        (List.range fuel).map (fun k : ℕ => tpfpRow pairs (i + (k : ℤ))) := by
  induction fuel with
  | zero => intro i _; rfl
  | succ n ih =>
    intro i hcov
    obtain ⟨e, he, he2⟩ := hcov 0 (Nat.succ_pos n)
    have he2i : e.2 = i := by push_cast at he2; simpa using he2
    have hmem : e ∈ pairs.filter (fun p => decide (p.2 = i)) :=
      List.mem_filter.mpr ⟨he, by simp [he2i]⟩
    have hne : ¬(pairs.filter (fun p => decide (p.2 = i))).length = 0 := by
      have := List.ne_nil_of_mem hmem
      simpa [List.length_eq_zero] using this
    simp only [tpfpLoop, if_neg hne]
    rw [List.range_succ_eq_map, List.map_cons, List.map_map]
    congr 1
    · simp [tpfpRow]
    · rw [ih (i + 1) ?_]
      · refine List.map_congr_left (fun k _ => ?_)
        have : i + 1 + (k : ℤ) = i + ((k : ℕ) + 1 : ℕ) := by push_cast; ring
        simp [Function.comp, this]
      · intro k hk
        obtain ⟨f, hf, hf2⟩ := hcov (k + 1) (by omega)
        refine ⟨f, hf, ?_⟩
        rw [hf2]; push_cast; ring

lemma sum_tp_fp_covered (y y_pred : List ℤ) (n : ℕ)
    (hcov : ∀ k : ℕ, k < n → ∃ e ∈ y.zip y_pred, e.2 = (k : ℤ)) :
    sum_tp_fp y y_pred n =
      (List.range n).map (fun k : ℕ => tpfpRow (y.zip y_pred) (k : ℤ)) := by
  rw [sum_tp_fp, tpfpLoop_covered _ n 0 (by simpa using hcov)]
  exact List.map_congr_left (fun k _ => by simp)

lemma tpfpRow_append (as bs : List (ℤ × ℤ)) (c : ℤ) :
    tpfpRow (as ++ bs) c =
      ((tpfpRow as c).1 + (tpfpRow bs c).1, (tpfpRow as c).2 + (tpfpRow bs c).2) := by
  simp [tpfpRow, List.filter_append, List.countP_append]

lemma addTables_map {n : ℕ} (f g : ℕ → ℕ × ℕ) :
    addTables ((List.range n).map f) ((List.range n).map g) =
      (List.range n).map (fun k => ((f k).1 + (g k).1, (f k).2 + (g k).2)) := by
  rw [addTables, List.zipWith_map_left, List.zipWith_map_right, List.zipWith_same]

lemma zeros_table (n : ℕ) :
    List.replicate n ((0 : ℕ), (0 : ℕ)) =
      (List.range n).map (fun k : ℕ => tpfpRow [] (k : ℤ)) := by
  have : (fun k : ℕ => tpfpRow [] (k : ℤ)) = Function.const ℕ ((0 : ℕ), (0 : ℕ)) := by
    funext k; rfl
  rw [this, List.map_const, List.length_range]

lemma foldl_tpfp_covered (n : ℕ) (parts : List Slice)
    (hcov : ∀ p ∈ parts, ∀ k : ℕ, k < n → ∃ e ∈ p.1.zip p.2, e.2 = (k : ℤ)) :
    ∀ acc : List (ℤ × ℤ),
      (parts.map (fun p => sum_tp_fp p.1 p.2 n)).foldl addTables
          ((List.range n).map (fun k : ℕ => tpfpRow acc (k : ℤ))) =
        (List.range n).map (fun k : ℕ => tpfpRow (acc ++ allPairs parts) (k : ℤ)) := by
  induction parts with
  | nil => intro acc; simp [allPairs]
  | cons p ps ih =>
    intro acc
    rw [List.map_cons, List.foldl_cons,
      sum_tp_fp_covered p.1 p.2 n (hcov p (List.mem_cons_self p ps)),
      addTables_map]
    have hrow : (fun k : ℕ => ((tpfpRow acc (k : ℤ)).1 + (tpfpRow (p.1.zip p.2) (k : ℤ)).1,
        (tpfpRow acc (k : ℤ)).2 + (tpfpRow (p.1.zip p.2) (k : ℤ)).2)) =
        (fun k : ℕ => tpfpRow (acc ++ p.1.zip p.2) (k : ℤ)) := by
      funext k; rw [tpfpRow_append]
    rw [hrow, ih (fun q hq => hcov q (List.mem_cons_of_mem p hq)) (acc ++ p.1.zip p.2)]
    have : acc ++ p.1.zip p.2 ++ allPairs ps = acc ++ allPairs (p :: ps) := by
      simp [allPairs, List.append_assoc]
    rw [this]

lemma globalTpFp_covered (parts : List Slice) (n : ℕ)
    (hcov : ∀ p ∈ parts, ∀ k : ℕ, k < n → ∃ e ∈ p.1.zip p.2, e.2 = (k : ℤ)) :
    globalTpFp parts n =
      (List.range n).map (fun k : ℕ => tpfpRow (allPairs parts) (k : ℤ)) := by
  rw [globalTpFp, zeros_table, foldl_tpfp_covered n parts hcov []]
  rfl

lemma length_foldl_addTables (ts : List (List (ℕ × ℕ))) (n : ℕ)
    (h : ∀ t ∈ ts, t.length = n) :
    ∀ acc : List (ℕ × ℕ), acc.length = n → (ts.foldl addTables acc).length = n := by
  induction ts with
  | nil => intro acc ha; simpa
  | cons t ts ih =>
    intro acc ha
    rw [List.foldl_cons]
    refine ih (fun u hu => h u (List.mem_cons_of_mem t hu)) _ ?_
    rw [addTables, List.length_zipWith, ha, h t (List.mem_cons_self t ts), min_self]

lemma length_globalTpFp (parts : List Slice) (n : ℕ) :
    (globalTpFp parts n).length = n := by
  rw [globalTpFp]
  refine length_foldl_addTables _ n (fun t ht => ?_) _ (List.length_replicate ..)
  obtain ⟨p, -, rfl⟩ := List.mem_map.mp ht
  exact length_sum_tp_fp p.1 p.2 n

lemma parts_ne_nil_of_nclasses (parts : List Slice) (h : 0 < nclassesOf parts) :
    parts ≠ [] := by
  intro hnil
  subst hnil
  exact absurd h (by decide)

lemma mapM_id_map_some {α : Type} (l : List α) :
    (l.map (fun x => (some x : Option α))).mapM id = some l := by
  induction l with
  | nil => rfl
  | cons a l ih =>
    rw [List.map_cons, List.mapM_cons, ih]
    rfl

lemma meanNaN_map_some (l : List ℚ) (h : l ≠ []) :
    meanNaN (l.map some) = some (l.sum / (l.length : ℚ)) := by
  rw [meanNaN, if_neg (by simpa using h)]
  rw [show l.map (fun x => (some x : Option ℚ)) = l.map some from rfl] at *
  rw [show (l.map some : List (Option ℚ)) = l.map (fun x => (some x : Option ℚ)) from rfl,
    mapM_id_map_some]
  simp

/-- C4: whenever the resolved label space has fewer than two classes,
precision_score fails with the DegenerateLabelSpace error (the ValueError of
line 122) for every averaging mode, and no value is returned. -/
theorem precision_degenerate_spec (parts : List Slice) (average : AvgMode)
    (h : nclassesOf parts < 2) :
    precision_score parts average = Except.error PrecErr.degenerateLabelSpace := by
  have hg : ¬(average = AvgMode.binary ∧ 2 < nclassesOf parts) := by
    rintro ⟨-, h2⟩; omega
  rw [precision_score.eq_def, if_neg hg, if_pos h]

/-- C4 witness: a single-class input fails for the macro mode. -/
theorem precision_degenerate_spec_witness :
    precision_score [([0], [0])] AvgMode.macroAvg =
      Except.error PrecErr.degenerateLabelSpace :=
  precision_degenerate_spec [([0], [0])] AvgMode.macroAvg (by decide)

/-- C3: binary averaging fails with the InvalidAveragingMode error (the bare
ValueError of line 119) whenever the resolved label space has more than two
classes, and with exactly two classes it returns the tp / (tp + fp) rate of
the second (positive) class row of the globally summed TP/FP table. -/
theorem precision_binary_spec (parts : List Slice) :
    (2 < nclassesOf parts →
      precision_score parts AvgMode.binary =
        Except.error PrecErr.invalidAveragingMode) ∧
    (nclassesOf parts = 2 →
      precision_score parts AvgMode.binary =
        Except.ok (tableRate (globalTpFp parts (nclassesOf parts)) 1)) := by
  constructor
  · intro h
    rw [precision_score, if_pos ⟨rfl, h⟩]
  · intro h
    have hg : ¬(AvgMode.binary = AvgMode.binary ∧ 2 < nclassesOf parts) := by
      rintro ⟨-, h2⟩; omega
    rw [precision_score, if_neg hg, if_neg (by omega)]
    show Except.ok ((precRates (globalTpFp parts (nclassesOf parts))).getD
      (nclassesOf parts - 1) none) = _
    have hlen : 1 < (globalTpFp parts (nclassesOf parts)).length := by
      rw [length_globalTpFp]; omega
    have hlen2 : 1 < (precRates (globalTpFp parts (nclassesOf parts))).length := by
      simpa [precRates] using hlen
    have hidx : nclassesOf parts - 1 = 1 := by omega
    rw [hidx, List.getD_eq_getElem _ _ hlen2]
    simp only [precRates, List.getElem_map, tableRate, List.getD_eq_getElem _ _ hlen]

/-- C3 witness: a three-class input fails with InvalidAveragingMode, and the
two-class scenario input returns the rate 2/3 of the positive class. -/
theorem precision_binary_spec_witness :
    precision_score [([0, 1, 2], [0, 1, 2])] AvgMode.binary =
        Except.error PrecErr.invalidAveragingMode ∧
    precision_score [([0, 0, 1, 1], [0, 1, 1, 1])] AvgMode.binary =
        Except.ok (some ((2 : ℚ) / 3)) := by
  constructor
  · exact (precision_binary_spec [([0, 1, 2], [0, 1, 2])]).1 (by decide)
  · rw [(precision_binary_spec [([0, 0, 1, 1], [0, 1, 1, 1])]).2 (by decide),
      show globalTpFp [([0, 0, 1, 1], [0, 1, 1, 1])]
        (nclassesOf [([0, 0, 1, 1], [0, 1, 1, 1])]) = [(1, 0), (2, 1)] by decide]
    norm_num [tableRate, divNaN]

/-- C2 (amended): with at least two resolved classes and every class index
predicted at least once in every partition, macro averaging returns the mean
over the class indices 0..nclasses-1 of the per-class rate TP / (TP + FP)
counted over all rows; the witness instantiates this at the scenario input
where the value is 5/6.  Without the coverage hypothesis a class with zero
positive predictions makes the result NaN (see the counterexample), it does
not contribute 0. -/
theorem precision_macro_spec (parts : List Slice)
    (h2 : 2 ≤ nclassesOf parts)
    (hcov : ∀ p ∈ parts, ∀ k : ℕ, k < nclassesOf parts →
      ∃ e ∈ p.1.zip p.2, e.2 = (k : ℤ)) :
    precision_score parts AvgMode.macroAvg =
      Except.ok (some (((List.range (nclassesOf parts)).map
        (fun k : ℕ => claimRate (allPairs parts) (k : ℤ))).sum /
          (nclassesOf parts : ℚ))) := by
  have hg : ¬(AvgMode.macroAvg = AvgMode.binary ∧ 2 < nclassesOf parts) := by
    rintro ⟨hc, -⟩; exact AvgMode.noConfusion hc
  rw [precision_score, if_neg hg, if_neg (by omega)]
  rw [globalTpFp_covered parts _ hcov, precRates, List.map_map]
  have hpos : ∀ k : ℕ, k < nclassesOf parts →
      (0 : ℚ) < ((tpfpRow (allPairs parts) (k : ℤ)).1 : ℚ) +
        ((tpfpRow (allPairs parts) (k : ℤ)).2 : ℚ) := by
    intro k hk
    obtain ⟨p, hp⟩ := List.exists_mem_of_ne_nil parts
      (parts_ne_nil_of_nclasses parts (by omega))
    obtain ⟨e, he, he2⟩ := hcov p hp k hk
    have hmem : e ∈ (allPairs parts).filter (fun q => decide (q.2 = (k : ℤ))) := by
      refine List.mem_filter.mpr ⟨?_, by simp [he2]⟩
      exact List.mem_flatten.mpr ⟨p.1.zip p.2, List.mem_map_of_mem _ hp, he⟩
    have hnat : 0 < (tpfpRow (allPairs parts) (k : ℤ)).1 +
        (tpfpRow (allPairs parts) (k : ℤ)).2 := by
      by_cases heq : e.1 = e.2
      · have h1 : 0 < (tpfpRow (allPairs parts) (k : ℤ)).1 := by
          simp only [tpfpRow]
          exact List.countP_pos_iff.mpr ⟨e, hmem, by simp [heq]⟩
        omega
      · have h1 : 0 < (tpfpRow (allPairs parts) (k : ℤ)).2 := by
          simp only [tpfpRow]
          exact List.countP_pos_iff.mpr ⟨e, hmem, by simp [heq]⟩
        omega
    exact_mod_cast hnat
  have hmap : (List.range (nclassesOf parts)).map
      ((fun r : ℕ × ℕ => divNaN (r.1 : ℚ) ((r.1 : ℚ) + (r.2 : ℚ))) ∘
        (fun k : ℕ => tpfpRow (allPairs parts) (k : ℤ))) =
      ((List.range (nclassesOf parts)).map
        (fun k : ℕ => claimRate (allPairs parts) (k : ℤ))).map some := by
    rw [List.map_map]
    refine List.map_congr_left (fun k hk => ?_)
    have hd := hpos k (List.mem_range.mp hk)
    simp [Function.comp, divNaN, claimRate, ne_of_gt hd]
  rw [hmap, meanNaN_map_some _ (by simp; omega)]
  simp

/-- C2 witness: at the scenario input y_true = [0,0,1,1],
y_pred = [0,1,1,1] (one partition) the macro precision is the mean of 1 and
2/3, that is 5/6. -/
theorem precision_macro_spec_witness :
    precision_score [([0, 0, 1, 1], [0, 1, 1, 1])] AvgMode.macroAvg =
      Except.ok (some ((5 : ℚ) / 6)) := by
  rw [precision_macro_spec [([0, 0, 1, 1], [0, 1, 1, 1])] (by decide) (by decide)]
  have t0 : tpfpRow (allPairs [([0, 0, 1, 1], [0, 1, 1, 1])]) (0 : ℤ) = (1, 0) := by
    decide
  have t1 : tpfpRow (allPairs [([0, 0, 1, 1], [0, 1, 1, 1])]) (1 : ℤ) = (2, 1) := by
    decide
  simp only [show nclassesOf [([0, 0, 1, 1], [0, 1, 1, 1])] = 2 by decide]
  norm_num [List.range_succ, claimRate, t0, t1]


/-- C2 counterexample: for y_true = [0, 1], y_pred = [0, 0] class 1 receives
no positive prediction; the claim predicts the mean of 1/2 and 0, that is
1/4, but the code returns NaN (the 0/0 row rate propagates through the
mean). -/
theorem precision_macro_cex :
    precision_score [([0, 1], [0, 0])] AvgMode.macroAvg = Except.ok none ∧
    (Except.ok (none : Option ℚ) : Except PrecErr (Option ℚ)) ≠
      Except.ok (some ((1 : ℚ) / 4)) := by
  constructor
  · rw [precision_score, if_neg (by decide), if_neg (by decide),
      show globalTpFp [([0, 1], [0, 0])] (nclassesOf [([0, 1], [0, 0])]) =
        [(1, 1), (0, 0)] by decide]
    norm_num [precRates, divNaN, meanNaN, List.mapM_cons]
    rfl
  · intro h
    exact Option.noConfusion (Except.ok.inj h)

lemma zipWith_sub_eq_map_zip (a b : List ℤ) :
    List.zipWith (fun x y => x - y) a b = (a.zip b).map (fun e => e.1 - e.2) := by
  induction a generalizing b with
  | nil => simp
  | cons x xs ih => cases b <;> simp [ih]

lemma countP_zip_eq_comm (a b : List ℤ) :
    (a.zip b).countP (fun e => decide (e.1 = e.2)) =
      (b.zip a).countP (fun e => decide (e.1 = e.2)) := by
  induction a generalizing b with
  | nil => cases b <;> rfl
  | cons x xs ih =>
    cases b with
    | nil => rfl
    | cons y ys =>
      simp only [List.zip_cons_cons, List.countP_cons, ih ys]
      congr 1
      simp [eq_comm]

lemma countAccurate_aligned (y_hat y : List ℤ) (h : y_hat.length = y.length) :
    countAccurate y_hat y =
      some (((y_hat.zip y).countP (fun e => decide (e.1 = e.2)) : ℕ) : ℤ) := by
  rw [countAccurate, cpSub.eq_def, if_pos h.symm]
  show some ((y.length : ℤ) - _) = _
  rw [zipWith_sub_eq_map_zip]
  congr 1
  rw [List.countP_map]
  have hcong : (y.zip y_hat).countP
      ((fun x => decide (x ≠ 0)) ∘ (fun e : ℤ × ℤ => e.1 - e.2)) =
      (y.zip y_hat).countP (fun e : ℤ × ℤ => decide (¬e.1 = e.2)) := by
    refine List.countP_congr (fun e _ => ?_)
    simp [Function.comp, sub_eq_zero]
  rw [hcong]
  have hsplit := List.length_eq_countP_add_countP
    (fun e : ℤ × ℤ => decide (e.1 = e.2)) (y.zip y_hat)
  have hsame : (y.zip y_hat).countP
      (fun a : ℤ × ℤ => decide ¬(decide (a.1 = a.2) = true)) =
      (y.zip y_hat).countP (fun e : ℤ × ℤ => decide (¬e.1 = e.2)) :=
    List.countP_congr (fun e _ => by simp)
  have hzlen : (y.zip y_hat).length = y.length := by
    rw [List.length_zip, h, min_self]
  rw [countP_zip_eq_comm y_hat y]
  omega

lemma mapM_eq_map_some {α β : Type} (f : α → Option β) (g : α → β) (l : List α)
    (h : ∀ x ∈ l, f x = some (g x)) : l.mapM f = some (l.map g) := by
  induction l with
  | nil => rfl
  | cons a l ih =>
    rw [List.mapM_cons, h a (List.mem_cons_self a l),
      ih (fun x hx => h x (List.mem_cons_of_mem a hx)), List.map_cons]
    rfl

lemma mapM_eq_none {α β : Type} (f : α → Option β) (l : List α) (x : α)
    (hx : x ∈ l) (h : f x = none) : l.mapM f = none := by
  induction l with
  | nil => cases hx
  | cons a l ih =>
    rw [List.mapM_cons]
    rcases List.mem_cons.mp hx with rfl | hx2
    · rw [h]; rfl
    · cases hfa : f a
      · rfl
      · rw [ih hx2]; rfl

lemma intCast_sum_counts (l : List ℕ) :
    ((l.map (fun k : ℕ => (k : ℤ))).sum : ℚ) = ((l.sum : ℕ) : ℚ) := by
  induction l with
  | nil => simp
  | cons a l ih =>
    simp only [List.map_cons, List.sum_cons, Nat.cast_add, Int.cast_add]
    rw [ih]
    push_cast
    ring

/-- C5: for aligned partitions with positive total length, accuracy equals
the total number of positions where prediction equals truth divided by the
total row count; identical sequences give 1 and fully differing ones give
0. -/
theorem accuracy_spec (parts : List (List ℤ × List ℤ))
    (halign : ∀ p ∈ parts, p.1.length = p.2.length)
    (hn : 0 < totalLen parts) :
    accuracy_score parts =
        some ((totalMatches parts : ℚ) / (totalLen parts : ℚ)) ∧
    ((∀ p ∈ parts, p.1 = p.2) → accuracy_score parts = some 1) ∧
    ((∀ p ∈ parts, ∀ e ∈ p.1.zip p.2, e.1 ≠ e.2) →
      accuracy_score parts = some 0) := by
  have hmapM : parts.mapM (fun p => countAccurate p.1 p.2) =
      some (parts.map (fun p =>
        (((p.1.zip p.2).countP (fun e => decide (e.1 = e.2)) : ℕ) : ℤ))) :=
    mapM_eq_map_some _ _ _ (fun p hp => countAccurate_aligned p.1 p.2 (halign p hp))
  have hne : ¬(parts.map (fun p => p.2.length)).sum = 0 := by
    have : totalLen parts ≠ 0 := by omega
    exact this
  have hmain : accuracy_score parts =
      some ((totalMatches parts : ℚ) / (totalLen parts : ℚ)) := by
    rw [accuracy_score, hmapM, Option.some_bind, if_neg hne]
    congr 1
    have hsum : (parts.map (fun p =>
        (((p.1.zip p.2).countP (fun e => decide (e.1 = e.2)) : ℕ) : ℤ))) =
        (parts.map (fun p =>
          (p.1.zip p.2).countP (fun e => decide (e.1 = e.2)))).map
            (fun k : ℕ => (k : ℤ)) := by
      rw [List.map_map]
      rfl
    rw [hsum, intCast_sum_counts]
    rfl
  refine ⟨hmain, fun hid => ?_, fun hdiff => ?_⟩
  · have hml : totalMatches parts = totalLen parts := by
      rw [totalMatches, totalLen]
      congr 1
      refine List.map_congr_left (fun p hp => ?_)
      have hself : p.2.zip p.2 = p.2.map (fun x => (x, x)) := by
        simpa using List.zip_map' id id p.2
      rw [hid p hp, hself, List.countP_map]
      simp [Function.comp]
    rw [hmain, hml, div_self (Nat.cast_ne_zero.mpr (by omega : totalLen parts ≠ 0))]
  · have hml : totalMatches parts = 0 := by
      rw [totalMatches]
      refine List.sum_eq_zero (fun x hx => ?_)
      obtain ⟨p, hp, rfl⟩ := List.mem_map.mp hx
      exact List.countP_eq_zero.mpr (fun e he => by simpa using hdiff p hp e he)
    rw [hmain, hml]
    simp

/-- C5 witness: two aligned partitions with two matches out of three rows
give 2/3, and an identical pair gives 1. -/
theorem accuracy_spec_witness :
    accuracy_score [([0, 1], [0, 1]), ([3], [4])] = some ((2 : ℚ) / 3) ∧
    accuracy_score [([5, 7], [5, 7])] = some 1 := by
  constructor
  · rw [(accuracy_spec [([0, 1], [0, 1]), ([3], [4])] (by decide) (by decide)).1,
      show totalMatches [([0, 1], [0, 1]), ([3], [4])] = 2 by decide,
      show totalLen [([0, 1], [0, 1]), ([3], [4])] = 3 by decide]
    norm_num
  · exact (accuracy_spec [([5, 7], [5, 7])] (by decide) (by decide)).2.1 (by decide)

lemma cpSub_none (a b : List ℤ) (h1 : a.length ≠ b.length) (h2 : a.length ≠ 1)
    (h3 : b.length ≠ 1) : cpSub a b = none := by
  rw [cpSub.eq_def, if_neg h1]
  rcases a with _ | ⟨x, _ | ⟨x2, xs⟩⟩
  · rcases b with _ | ⟨y, _ | ⟨y2, ys⟩⟩
    · exact absurd rfl h1
    · exact absurd rfl h3
    · rfl
  · exact absurd rfl h2
  · rcases b with _ | ⟨y, _ | ⟨y2, ys⟩⟩
    · rfl
    · exact absurd rfl h3
    · rfl

/-- C6 (amended): a partition whose two slices have different lengths,
neither being one, makes the elementwise subtraction raise, so accuracy
returns no numeric result; but when one mismatched slice has length one,
numpy broadcasting silently produces a numeric result (see the
counterexample), so a total-length mismatch alone is not always fatal. -/
theorem accuracy_mismatch_spec (parts : List (List ℤ × List ℤ))
    (h : ∃ p ∈ parts, p.1.length ≠ p.2.length ∧ p.1.length ≠ 1 ∧ p.2.length ≠ 1) :
    accuracy_score parts = none := by
  obtain ⟨p, hp, hne, h1, h2⟩ := h
  rw [accuracy_score,
    mapM_eq_none (fun q => countAccurate q.1 q.2) parts p hp (by
      show countAccurate p.1 p.2 = none
      rw [countAccurate, cpSub_none p.2 p.1 (fun hh => hne hh.symm) h2 h1]
      rfl)]
  rfl

/-- C6 witness: slice lengths 2 and 3 cannot broadcast, so the whole
accuracy computation yields no result. -/
theorem accuracy_mismatch_spec_witness :
    accuracy_score [([0, 1], [0, 0, 0])] = none :=
  accuracy_mismatch_spec [([0, 1], [0, 0, 0])]
    ⟨([0, 1], [0, 0, 0]), by decide, by decide, by decide, by decide⟩

/-- C6 counterexample: y_hat totals one row, y totals three, yet the
broadcast of the length-one slice makes the code return the numeric value 1
instead of failing. -/
theorem accuracy_mismatch_cex :
    (([([0], [0, 0, 0])] : List (List ℤ × List ℤ)).map
        (fun p => p.1.length)).sum ≠
      (([([0], [0, 0, 0])] : List (List ℤ × List ℤ)).map
        (fun p => p.2.length)).sum ∧
    accuracy_score [([0], [0, 0, 0])] = some 1 := by
  refine ⟨by decide, ?_⟩
  rw [accuracy_score, show [([0], [0, 0, 0])].mapM
      (fun p : List ℤ × List ℤ => countAccurate p.1 p.2) = some [3] by decide,
    Option.some_bind]
  norm_num

lemma cpUnique_nodup (l : List ℤ) : (cpUnique l).Nodup :=
  ((List.perm_insertionSort _ _).nodup_iff).mpr (List.nodup_dedup l)

lemma mem_cpUnique {x : ℤ} {l : List ℤ} : x ∈ cpUnique l ↔ x ∈ l := by
  rw [cpUnique, (List.perm_insertionSort (· ≤ ·) l.dedup).mem_iff, List.mem_dedup]

lemma mem_resolveLabels {x : ℤ} {parts : List (List ℤ)} :
    x ∈ resolveLabels parts ↔ x ∈ parts.flatten := by
  rw [resolveLabels, mem_cpUnique, List.mem_flatten]
  constructor
  · rintro ⟨l, hl, hx⟩
    obtain ⟨p, hp, rfl⟩ := List.mem_map.mp hl
    exact List.mem_flatten.mpr ⟨p, hp, mem_cpUnique.mp hx⟩
  · intro hx
    obtain ⟨p, hp, hxp⟩ := List.mem_flatten.mp hx
    exact ⟨cpUnique p, List.mem_map_of_mem _ hp, mem_cpUnique.mpr hxp⟩

/-- C9: label-space resolution returns a sorted duplicate-free list whose
members are exactly the values observed across all partitions, and two
inputs that are permutations of one another (any placement or completion
order of the partitions) resolve to the same list. -/
theorem resolveLabels_spec (parts parts2 : List (List ℤ))
    (hperm : parts.Perm parts2) :
    List.Sorted (· ≤ ·) (resolveLabels parts) ∧
    (resolveLabels parts).Nodup ∧
    (∀ x : ℤ, x ∈ resolveLabels parts ↔ x ∈ parts.flatten) ∧
    resolveLabels parts = resolveLabels parts2 := by
  refine ⟨List.sorted_insertionSort _ _, cpUnique_nodup _,
    fun x => mem_resolveLabels, ?_⟩
  have hmemiff : ∀ x : ℤ, x ∈ resolveLabels parts ↔ x ∈ resolveLabels parts2 := by
    intro x
    rw [mem_resolveLabels, mem_resolveLabels]
    exact hperm.flatten.mem_iff
  exact List.eq_of_perm_of_sorted
    ((List.perm_ext_iff_of_nodup (cpUnique_nodup _) (cpUnique_nodup _)).mpr hmemiff)
    (List.sorted_insertionSort _ _) (List.sorted_insertionSort _ _)

/-- C9 witness: the partitions [3, 1], [2] dispatched in either order
resolve to the identical sorted label set [1, 2, 3]. -/
theorem resolveLabels_spec_witness :
    resolveLabels [[3, 1], [2]] = [1, 2, 3] ∧
    resolveLabels [[2], [3, 1]] = [1, 2, 3] := by
  have h := (resolveLabels_spec [[3, 1], [2]] [[2], [3, 1]] (by decide)).2.2.2
  exact ⟨by decide, h.symm.trans (by decide)⟩

/-- C7: evaluation of local_cm at the failing input y_true = [5, 0],
y_pred = [0, 0], labels = [0, 1, 2], no weights.  The row with true label 5
falls outside the label space and is filtered, but the default weight vector
is only created afterwards (length 1) and is then indexed with the
original-length mask (length 2), which raises an IndexError: the partition
contribution is an error (none), not the silently-filtered count matrix.
The second conjunct shows the matrix the claim expects, which the code only
produces when a caller passes the ones weights explicitly. -/
theorem local_cm_default_weight_bug :
    local_cm [5, 0] [0, 0] [0, 1, 2] none = none ∧
    local_cm [5, 0] [0, 0] [0, 1, 2] (some [1, 1]) =
      some [[1, 0, 0], [0, 0, 0], [0, 0, 0]] := by
  constructor
  · simp [local_cm, maskFilter, maskIndex, cooToDense]
  · simp [local_cm, maskFilter, maskIndex, cooToDense, List.range_succ]

lemma zipWith_mask_true (n : ℕ) (t : List ℤ) :
    ∀ p : List ℤ, t.length = p.length →
      (∀ x ∈ t, x < (n : ℤ)) → (∀ x ∈ p, x < (n : ℤ)) →
      List.zipWith (fun a b : ℤ => decide (b < (n : ℤ)) && decide (a < (n : ℤ))) t p =
        List.replicate t.length true := by
  induction t with
  | nil => intro p _ _ _; rfl
  | cons a as ih =>
    intro p hlen ht hp
    cases p with
    | nil => cases hlen
    | cons b bs =>
      rw [List.zipWith_cons_cons,
        decide_eq_true (hp b (List.mem_cons_self b bs)),
        decide_eq_true (ht a (List.mem_cons_self a as)),
        Bool.and_self, List.length_cons, List.replicate_succ]
      congr 1
      exact ih bs (by simpa using hlen)
        (fun x hx => ht x (List.mem_cons_of_mem a hx))
        (fun x hx => hp x (List.mem_cons_of_mem b hx))

lemma maskFilter_replicate_true {α : Type} (xs : List α) :
    maskFilter xs (List.replicate xs.length true) = xs := by
  induction xs with
  | nil => rfl
  | cons x xs ih =>
    rw [List.length_cons, List.replicate_succ]
    simpa [maskFilter] using ih

lemma zip_replicate_const {α β : Type} (l : List α) (c : β) :
    l.zip (List.replicate l.length c) = l.map (fun x => (x, c)) := by
  induction l with
  | nil => rfl
  | cons x xs ih =>
    rw [List.length_cons, List.replicate_succ, List.zip_cons_cons, ih, List.map_cons]

lemma cooToDense_ones (n : ℕ) (rows cols : List ℤ)
    (hlen : rows.length = cols.length)
    (hr : ∀ x ∈ rows, 0 ≤ x ∧ x < (n : ℤ)) (hc : ∀ x ∈ cols, 0 ≤ x ∧ x < (n : ℤ)) :
    cooToDense n rows cols (List.replicate rows.length (1 : ℚ)) =
      some (countMatrix (rows.zip cols) n) := by
  rw [cooToDense, if_pos]
  · congr 1
    rw [countMatrix]
    refine List.map_congr_left (fun t _ => ?_)
    refine List.map_congr_left (fun p _ => ?_)
    have hzlen : rows.length = (rows.zip cols).length := by
      rw [List.length_zip, hlen, min_self]
    rw [hzlen, zip_replicate_const, List.filter_map]
    have hmap : List.map Prod.snd ∘ List.map (fun x : ℤ × ℤ => (x, (1 : ℚ))) =
        fun l : List (ℤ × ℤ) => List.map (fun _ => (1 : ℚ)) l := by
      funext l
      rw [Function.comp, List.map_map]
      rfl
    rw [show List.map Prod.snd
        (List.map (fun x : ℤ × ℤ => (x, (1 : ℚ)))
          (List.filter ((fun e : (ℤ × ℤ) × ℚ =>
              decide (e.1.1 = (t : ℤ)) && decide (e.1.2 = (p : ℤ))) ∘
            (fun x : ℤ × ℤ => (x, (1 : ℚ)))) (rows.zip cols))) =
        List.map (fun _ => (1 : ℚ))
          (List.filter ((fun e : (ℤ × ℤ) × ℚ =>
              decide (e.1.1 = (t : ℤ)) && decide (e.1.2 = (p : ℤ))) ∘
            (fun x : ℤ × ℤ => (x, (1 : ℚ)))) (rows.zip cols)) from
      congrFun hmap _]
    rw [List.map_const', List.sum_replicate, nsmul_eq_mul, mul_one]
    rw [countCell, List.countP_eq_length_filter]
    congr 2
  · rw [Bool.and_eq_true, List.all_eq_true, List.all_eq_true]
    constructor
    · intro x hx
      rw [Bool.and_eq_true]
      exact ⟨decide_eq_true (hr x hx).1, decide_eq_true (hr x hx).2⟩
    · intro x hx
      rw [Bool.and_eq_true]
      exact ⟨decide_eq_true (hc x hx).1, decide_eq_true (hc x hx).2⟩

lemma local_cm_clean (y_true y_pred labels : List ℤ)
    (halign : y_true.length = y_pred.length)
    (ht : ∀ x ∈ y_true, 0 ≤ x ∧ x < (labels.length : ℤ))
    (hp : ∀ x ∈ y_pred, 0 ≤ x ∧ x < (labels.length : ℤ)) :
    local_cm y_true y_pred labels none =
      some (countMatrix (y_true.zip y_pred) labels.length) := by
  rw [local_cm]
  have hmask : List.zipWith
      (fun t p : ℤ => decide (p < (labels.length : ℤ)) &&
        decide (t < (labels.length : ℤ))) y_true y_pred =
      List.replicate y_true.length true :=
    zipWith_mask_true labels.length y_true y_pred halign
      (fun x hx => (ht x hx).2) (fun x hx => (hp x hx).2)
  rw [hmask]
  have hyp : maskFilter y_pred (List.replicate y_true.length true) = y_pred := by
    rw [halign]; exact maskFilter_replicate_true y_pred
  have hyt : maskFilter y_true (List.replicate y_true.length true) = y_true :=
    maskFilter_replicate_true y_true
  rw [hyp, hyt]
  rw [maskIndex, if_pos (by simp [hyt])]
  rw [show maskFilter (List.replicate y_true.length (1 : ℚ))
      (List.replicate y_true.length true) =
      List.replicate y_true.length (1 : ℚ) by
    simpa using maskFilter_replicate_true (List.replicate y_true.length (1 : ℚ))]
  exact cooToDense_ones labels.length y_true y_pred halign ht hp

lemma countCell_append (as bs : List (ℤ × ℤ)) (t p : ℕ) :
    countCell (as ++ bs) t p = countCell as t p + countCell bs t p :=
  List.countP_append _ _ _

lemma matAdd_countMatrix (as bs : List (ℤ × ℤ)) (n : ℕ) :
    matAdd (countMatrix as n) (countMatrix bs n) = countMatrix (as ++ bs) n := by
  rw [countMatrix, countMatrix, countMatrix, matAdd,
    List.zipWith_map_left, List.zipWith_map_right, List.zipWith_same]
  refine List.map_congr_left (fun t _ => ?_)
  rw [List.zipWith_map_left, List.zipWith_map_right, List.zipWith_same]
  refine List.map_congr_left (fun p _ => ?_)
  rw [countCell_append]
  push_cast
  ring

lemma zeros_eq_countMatrix (n : ℕ) : zeros n = countMatrix [] n := by
  rw [zeros, countMatrix]
  have hin : (fun t : ℕ => (List.range n).map
      (fun p : ℕ => ((countCell [] t p : ℕ) : ℚ))) =
      Function.const ℕ (List.replicate n (0 : ℚ)) := by
    funext t
    have : (fun p : ℕ => ((countCell [] t p : ℕ) : ℚ)) =
        Function.const ℕ (0 : ℚ) := by
      funext p; simp [countCell]
    rw [this, List.map_const, List.length_range]
    rfl
  rw [hin, List.map_const, List.length_range]

lemma foldl_matAdd_counts (n : ℕ) (parts : List Slice) :
    ∀ acc : List (ℤ × ℤ),
      (parts.map (fun p => countMatrix (p.1.zip p.2) n)).foldl matAdd
          (countMatrix acc n) =
        countMatrix (acc ++ allPairs parts) n := by
  induction parts with
  | nil => intro acc; simp [allPairs]
  | cons p ps ih =>
    intro acc
    rw [List.map_cons, List.foldl_cons, matAdd_countMatrix,
      ih (acc ++ p.1.zip p.2)]
    have : acc ++ p.1.zip p.2 ++ allPairs ps = acc ++ allPairs (p :: ps) := by
      simp [allPairs, List.append_assoc]
    rw [this]

lemma list_sum_zero_of_nonneg (l : List ℚ) (h0 : ∀ c ∈ l, 0 ≤ c)
    (hs : l.sum = 0) : ∀ c ∈ l, c = 0 := by
  induction l with
  | nil => intro c hc; cases hc
  | cons a l ih =>
    rw [List.sum_cons] at hs
    have ha : 0 ≤ a := h0 a (List.mem_cons_self a l)
    have hl : 0 ≤ l.sum :=
      List.sum_nonneg (fun x hx => h0 x (List.mem_cons_of_mem a hx))
    intro c hc
    rcases List.mem_cons.mp hc with rfl | hc2
    · linarith
    · exact ih (fun x hx => h0 x (List.mem_cons_of_mem a hx)) (by linarith) c hc2

lemma mem_countMatrix {pairs : List (ℤ × ℤ)} {n : ℕ} {row : List ℚ}
    (hr : row ∈ countMatrix pairs n) :
    ∃ t : ℕ, t < n ∧
      row = (List.range n).map (fun p : ℕ => ((countCell pairs t p : ℕ) : ℚ)) := by
  obtain ⟨t, ht, rfl⟩ := List.mem_map.mp hr
  exact ⟨t, List.mem_range.mp ht, rfl⟩

lemma countMatrix_cell_nonneg {pairs : List (ℤ × ℤ)} {n : ℕ} {row : List ℚ}
    (hr : row ∈ countMatrix pairs n) : ∀ c ∈ row, 0 ≤ c := by
  obtain ⟨t, -, rfl⟩ := mem_countMatrix hr
  intro c hc
  obtain ⟨p, -, rfl⟩ := List.mem_map.mp hc
  exact Nat.cast_nonneg _

lemma divNTN_eq_safeDiv {a b : ℚ} (h : b = 0 → a = 0) :
    divNTN a b = safeDiv a b := by
  by_cases hb : b = 0
  · simp [divNTN, safeDiv, hb, h hb]
  · simp [divNTN, safeDiv, hb]

lemma rowNormalize_countMatrix (pairs : List (ℤ × ℤ)) (n : ℕ) :
    rowNormalize (countMatrix pairs n) = rowNormSafe (countMatrix pairs n) := by
  rw [rowNormalize, rowNormSafe]
  refine List.map_congr_left (fun row hrow => ?_)
  refine List.map_congr_left (fun c hc => ?_)
  refine divNTN_eq_safeDiv (fun hb => ?_)
  exact list_sum_zero_of_nonneg row (countMatrix_cell_nonneg hrow) hb c hc

lemma allNormalize_countMatrix (pairs : List (ℤ × ℤ)) (n : ℕ) :
    allNormalize (countMatrix pairs n) = allNormSafe (countMatrix pairs n) := by
  rw [allNormalize, allNormSafe]
  refine List.map_congr_left (fun row hrow => ?_)
  refine List.map_congr_left (fun c hc => ?_)
  refine divNTN_eq_safeDiv (fun hS => ?_)
  have hrow0 : row.sum = 0 := by
    refine list_sum_zero_of_nonneg ((countMatrix pairs n).map List.sum) ?_ hS
      row.sum (List.mem_map_of_mem _ hrow)
    intro s hs
    obtain ⟨r, hr, rfl⟩ := List.mem_map.mp hs
    exact List.sum_nonneg (countMatrix_cell_nonneg hr)
  exact list_sum_zero_of_nonneg row (countMatrix_cell_nonneg hrow) hrow0 c hc

lemma colSums_countMatrix (pairs : List (ℤ × ℤ)) (n : ℕ) :
    colSums (countMatrix pairs n) n =
      (List.range n).map (fun p : ℕ =>
        ((List.range n).map (fun t : ℕ => ((countCell pairs t p : ℕ) : ℚ))).sum) := by
  rw [colSums]
  refine List.map_congr_left (fun p hp => ?_)
  congr 1
  rw [countMatrix, List.map_map]
  refine List.map_congr_left (fun t _ => ?_)
  have hplen : p < ((List.range n).map
      (fun q : ℕ => ((countCell pairs t q : ℕ) : ℚ))).length := by
    simpa using List.mem_range.mp hp
  show ((List.range n).map
      (fun q : ℕ => ((countCell pairs t q : ℕ) : ℚ))).getD p 0 = _
  rw [List.getD_eq_getElem _ _ hplen, List.getElem_map, List.getElem_range]

lemma colNormalize_countMatrix (pairs : List (ℤ × ℤ)) (n : ℕ) :
    colNormalize (countMatrix pairs n) n = colNormSafe (countMatrix pairs n) n := by
  rw [colNormalize, colNormSafe]
  refine List.map_congr_left (fun row hrow => ?_)
  refine List.map_congr_left (fun e he => ?_)
  refine divNTN_eq_safeDiv (fun hb => ?_)
  obtain ⟨t, htn, rfl⟩ := mem_countMatrix hrow
  rw [colSums_countMatrix, List.zip_map'] at he
  obtain ⟨p, -, rfl⟩ := List.mem_map.mp he
  have hmem : ((countCell pairs t p : ℕ) : ℚ) ∈
      (List.range n).map (fun s : ℕ => ((countCell pairs s p : ℕ) : ℚ)) :=
    List.mem_map_of_mem _ (List.mem_range.mpr htn)
  have hnon : ∀ c ∈ (List.range n).map
      (fun s : ℕ => ((countCell pairs s p : ℕ) : ℚ)), 0 ≤ c := by
    intro c hc
    obtain ⟨s, -, rfl⟩ := List.mem_map.mp hc
    exact Nat.cast_nonneg _
  exact list_sum_zero_of_nonneg _ hnon hb _ hmem

/-- C8: for aligned partitions whose labels all lie inside the resolved
space (so no row is dropped and the default weights are well formed), the
global confusion matrix is the summed count matrix; each normalization mode
divides by row sums, column sums or the grand total with every division by
zero yielding 0 (safeDiv, never NaN or infinity); and under row
normalization every row either sums to 1 or, when it held no observation,
stays all zero. -/
theorem confusion_matrix_spec (parts : List Slice)
    (halign : ∀ p ∈ parts, p.1.length = p.2.length)
    (hrange : ∀ p ∈ parts, ∀ x ∈ p.1 ++ p.2,
      0 ≤ x ∧ x < (nclassesOf parts : ℤ)) :
    confusion_matrix parts NormMode.noNorm none =
        some (countMatrix (allPairs parts) (nclassesOf parts)) ∧
    confusion_matrix parts NormMode.byTrue none =
        some (rowNormSafe (countMatrix (allPairs parts) (nclassesOf parts))) ∧
    confusion_matrix parts NormMode.byPred none =
        some (colNormSafe (countMatrix (allPairs parts) (nclassesOf parts))
          (nclassesOf parts)) ∧
    confusion_matrix parts NormMode.byAll none =
        some (allNormSafe (countMatrix (allPairs parts) (nclassesOf parts))) ∧
    (∀ row ∈ rowNormSafe (countMatrix (allPairs parts) (nclassesOf parts)),
      row.sum = 1 ∨ row = List.replicate (nclassesOf parts) (0 : ℚ)) := by
  have hloc : ∀ p ∈ parts,
      local_cm p.1 p.2 (resolveLabels (parts.map Prod.fst)) none =
        some (countMatrix (p.1.zip p.2) (nclassesOf parts)) := by
    intro p hp
    exact local_cm_clean p.1 p.2 _ (halign p hp)
      (fun x hx => hrange p hp x (List.mem_append.mpr (Or.inl hx)))
      (fun x hx => hrange p hp x (List.mem_append.mpr (Or.inr hx)))
  have hmapM : parts.mapM (fun p =>
      local_cm p.1 p.2 (resolveLabels (parts.map Prod.fst)) none) =
      some (parts.map (fun p => countMatrix (p.1.zip p.2) (nclassesOf parts))) :=
    mapM_eq_map_some _ _ _ hloc
  have hfold : (parts.map (fun p =>
      countMatrix (p.1.zip p.2) (nclassesOf parts))).foldl matAdd
        (zeros (nclassesOf parts)) =
      countMatrix (allPairs parts) (nclassesOf parts) := by
    rw [zeros_eq_countMatrix]
    simpa using foldl_matAdd_counts (nclassesOf parts) parts []
  refine ⟨?_, ?_, ?_, ?_, ?_⟩
  · rw [confusion_matrix.eq_def, hmapM]
    show some ((parts.map (fun p =>
      countMatrix (p.1.zip p.2) (nclassesOf parts))).foldl matAdd
        (zeros (nclassesOf parts))) = _
    rw [hfold]
  · rw [confusion_matrix.eq_def, hmapM]
    show some (rowNormalize ((parts.map (fun p =>
      countMatrix (p.1.zip p.2) (nclassesOf parts))).foldl matAdd
        (zeros (nclassesOf parts)))) = _
    rw [hfold, rowNormalize_countMatrix]
  · rw [confusion_matrix.eq_def, hmapM]
    show some (colNormalize ((parts.map (fun p =>
      countMatrix (p.1.zip p.2) (nclassesOf parts))).foldl matAdd
        (zeros (nclassesOf parts))) (nclassesOf parts)) = _
    rw [hfold, colNormalize_countMatrix]
  · rw [confusion_matrix.eq_def, hmapM]
    show some (allNormalize ((parts.map (fun p =>
      countMatrix (p.1.zip p.2) (nclassesOf parts))).foldl matAdd
        (zeros (nclassesOf parts)))) = _
    rw [hfold, allNormalize_countMatrix]
  · intro row hrow
    rw [rowNormSafe] at hrow
    obtain ⟨r0, hr0, rfl⟩ := List.mem_map.mp hrow
    by_cases hS : r0.sum = 0
    · right
      have hlen : r0.length = nclassesOf parts := by
        obtain ⟨t, -, rfl⟩ := mem_countMatrix hr0
        simp
      refine List.eq_replicate_iff.mpr ⟨by simpa using hlen, ?_⟩
      intro x hx
      obtain ⟨c, -, rfl⟩ := List.mem_map.mp hx
      simp [safeDiv, hS]
    · left
      have hstep : r0.map (fun c => safeDiv c r0.sum) =
          r0.map (fun c => c * (r0.sum)⁻¹) :=
        List.map_congr_left (fun c _ => by rw [safeDiv, if_neg hS, div_eq_mul_inv])
      rw [hstep, List.sum_map_mul_right, List.map_id', mul_inv_cancel₀ hS]

/-- C8 witness: two partitions with rows (0,0), (1,1) and (0,1) over the
two-class space give the global matrix [[1,1],[0,1]]; its row normalization
is [[1/2,1/2],[0,1]], whose rows sum to 1. -/
theorem confusion_matrix_spec_witness :
    confusion_matrix [([0, 1], [0, 1]), ([0], [1])] NormMode.noNorm none =
        some [[1, 1], [0, 1]] ∧
    confusion_matrix [([0, 1], [0, 1]), ([0], [1])] NormMode.byTrue none =
        some [[(1 : ℚ) / 2, 1 / 2], [0, 1]] := by
  have h := confusion_matrix_spec [([0, 1], [0, 1]), ([0], [1])]
    (by decide) (by decide)
  have hM : countMatrix (allPairs [([0, 1], [0, 1]), ([0], [1])])
      (nclassesOf [([0, 1], [0, 1]), ([0], [1])]) = [[1, 1], [0, 1]] := by
    rw [show nclassesOf [([0, 1], [0, 1]), ([0], [1])] = 2 by decide]
    norm_num [countMatrix, countCell, allPairs, List.range_succ]
  refine ⟨?_, ?_⟩
  · rw [h.1, hM]
  · rw [h.2.1, hM]
    norm_num [rowNormSafe, safeDiv]

end GpuBdbQ28
